import Mathlib

/-!
Verification of the PoA validator-set governance hook (`processHeadersHook`
in consensus/ibft/poa.go) and of the secrets-manager support check
(`SupportedServiceManager` in secrets/secrets.go), as shallow embeddings.
-/

namespace Ibft

/-- 20-byte account identifier; only equality on it matters here, so it is
modelled as a natural number. -/
abbrev Address := Nat

/-- The distinguished zero address: a header whose miner is this address
carries no vote. -/
def ZeroAddress : Address := 0

/-- 8-byte header nonce field, modelled as a natural number. -/
abbrev Nonce := Nat

/-- Modelled from the spec: the bit-exact 8-byte sentinel proposing admission
(`nonceAuthVote`); the constant itself lives in the types package, outside the
provided sources. -/
def nonceAuthVote : Nonce := 0xffffffffffffffff

/-- Modelled from the spec: the bit-exact 8-byte sentinel proposing eviction
(`nonceDropVote`); the constant itself lives outside the provided sources. -/
def nonceDropVote : Nonce := 0x0000000000000000

/-- The header fields the hook reads: block number, miner (the governance
candidate) and nonce. -/
structure Header where
  Number : Nat
  Miner : Address
  Nonce : Nonce
  deriving DecidableEq

/-- Modelled from the spec: ordered container of unique addresses
(the `ValidatorSet` type lives in snapshot code outside the provided
sources). -/
abbrev ValidatorSet := List Address

/-- Modelled from the spec: membership test of the validator set. -/
def ValidatorSet.Includes (s : ValidatorSet) (a : Address) : Bool :=
  s.contains a

/-- Modelled from the spec: insert if absent, no-op if present; a new entry is
appended so insertion order of existing entries is preserved. -/
def ValidatorSet.Add (s : ValidatorSet) (a : Address) : ValidatorSet :=
  if s.contains a then s else s ++ [a]

/-- Modelled from the spec: remove if present, no-op otherwise; surviving
entries keep their relative order. -/
def ValidatorSet.Del (s : ValidatorSet) (a : Address) : ValidatorSet :=
  s.filter (fun x => !(x == a))

/-- Modelled from the spec: number of validators in the set. -/
def ValidatorSet.Len (s : ValidatorSet) : Nat :=
  s.length

/-- A vote record: the voting validator, the candidate address, and the
direction (true = authorize, false = drop). -/
structure Vote where
  Validator : Address
  Address : Address
  Authorize : Bool
  deriving DecidableEq

/-- The governance snapshot: block number, validator set, pending votes. -/
structure Snapshot where
  Number : Nat
  Set : ValidatorSet
  Votes : List Vote
  deriving DecidableEq

/-- Modelled from the spec: count the pending votes matching a predicate
(`Snapshot.Count` lives in snapshot code outside the provided sources). -/
def Snapshot.Count (snap : Snapshot) (pred : Vote → Bool) : Nat :=
  snap.Votes.countP pred

/-- Modelled from the spec: drop every pending vote matching a predicate,
keeping the survivors in their relative order. -/
def Snapshot.RemoveVotes (snap : Snapshot) (pred : Vote → Bool) : Snapshot :=
  { snap with Votes := snap.Votes.filter (fun v => !(pred v)) }

/-- The observable outcome of one `processHeadersHook` invocation: the working
snapshot after the call, the headers passed to `saveSnap`, the block numbers
passed to the store's `deleteLower`, and the returned error (`none` means
success). -/
structure HookOutcome where
  snap : Snapshot
  saves : List Header
  deletes : List Nat
  err : Option String
  deriving DecidableEq

/-- The nonce switch of `processHeadersHook` (poa.go lines 102-111): the AUTH
sentinel selects authorize = true, the DROP sentinel selects
authorize = false, anything else is rejected. -/
def decodeVoteNonce (nonce : Nonce) : Option Bool :=
  if nonce = nonceAuthVote then some true
  else if nonce = nonceDropVote then some false
  else none

/-- Poa.go lines 134-141: if the proposer has no pending vote for this miner,
cast a new one; otherwise leave the votes untouched. -/
def castVote (snap : Snapshot) (proposer miner : Address) (authorize : Bool) :
    Snapshot :=
  if snap.Count (fun v => v.Validator == proposer && v.Address == miner) = 0
  then { snap with Votes := snap.Votes ++ [⟨proposer, miner, authorize⟩] }
  else snap

/-- Poa.go lines 143-167: tally every vote naming the miner as candidate and,
past a strict majority of the current set size, apply the outcome: add the
miner on authorize, or remove it and purge its own votes on drop, purging the
closed ballot on the miner in both cases. -/
def applyTally (snap : Snapshot) (miner : Address) (authorize : Bool) :
    Snapshot :=
  let tally := snap.Count (fun v => v.Address == miner)
  if ValidatorSet.Len snap.Set / 2 < tally then
    let snap1 :=
      if authorize then { snap with Set := ValidatorSet.Add snap.Set miner }
      else
        Snapshot.RemoveVotes { snap with Set := ValidatorSet.Del snap.Set miner }
          (fun v => v.Validator == miner)
    snap1.RemoveVotes (fun v => v.Address == miner)
  else snap

/-- Poa.go lines 113-169: the vote branch, for a non-checkpoint header with a
non-zero miner whose nonce decoded to a direction. -/
def voteBranch (snap : Snapshot) (proposer miner : Address) (authorize : Bool) :
    HookOutcome :=
  if authorize && ValidatorSet.Includes snap.Set miner then
    ⟨snap, [], [], none⟩
  else if !authorize && !(ValidatorSet.Includes snap.Set miner) then
    ⟨snap, [], [], none⟩
  else if 1 < snap.Count (fun v => v.Validator == proposer && v.Address == miner)
  then
    ⟨snap, [], [], some "more than one proposal per validator per address found"⟩
  else
    ⟨applyTally (castVote snap proposer miner authorize) miner authorize,
      [], [], none⟩

/-- Poa.go lines 77-170: the PoA header-processing hook, with the `saveSnap`
and `deleteLower` side effects recorded in the outcome. -/
def processHeadersHook (epochSize : Nat) (header : Header) (snap : Snapshot)
    (proposer : Address) : HookOutcome :=
  if header.Number % epochSize = 0 then
    let epoch : Int := ((header.Number / epochSize : Nat) : Int) - 2
    ⟨{ snap with Votes := [] }, [header],
      if 0 < epoch then [epoch.toNat * epochSize] else [], none⟩
  else if header.Miner = ZeroAddress then
    ⟨snap, [], [], none⟩
  else
    match decodeVoteNonce header.Nonce with
    | none => ⟨snap, [], [], some "incorrect vote nonce"⟩
    | some authorize => voteBranch snap proposer header.Miner authorize

/-- Spec section 8, invariant 1: at most one pending vote per
(voter, candidate) pair. -/
def VotesUnique (votes : List Vote) : Prop :=
  ∀ a b : Address, votes.countP (fun v => v.Validator == a && v.Address == b) ≤ 1

end Ibft

namespace Secrets

/-- The string-backed type tagging a secrets-manager implementation. -/
abbrev SecretsManagerType := String

/-- The local filesystem secrets manager type. -/
def Local : SecretsManagerType := "local"

/-- The Hashicorp Vault secrets manager type. -/
def HashicorpVault : SecretsManagerType := "hashicorp-vault"

/-- Secrets.go lines 94-98: whether the passed-in service manager type is
supported. -/
def SupportedServiceManager (service : SecretsManagerType) : Bool :=
  service == HashicorpVault || service == Local

end Secrets

namespace Ibft

theorem Includes_iff_mem (s : ValidatorSet) (a : Address) :
    ValidatorSet.Includes s a = true ↔ a ∈ s :=
  List.elem_iff

theorem mem_Add (s : ValidatorSet) (a x : Address) (hx : x ∈ s) :
    x ∈ ValidatorSet.Add s a := by
  unfold ValidatorSet.Add
  split
  · exact hx
  · exact List.mem_append_left _ hx

theorem mem_Del (s : ValidatorSet) (a x : Address) (hx : x ∈ s) (hne : x ≠ a) :
    x ∈ ValidatorSet.Del s a := by
  unfold ValidatorSet.Del
  rw [List.mem_filter]
  exact ⟨hx, by simp [hne]⟩

theorem Add_ne (s : ValidatorSet) (a : Address)
    (h : ValidatorSet.Includes s a = false) : ValidatorSet.Add s a ≠ s := by
  have h2 : s.contains a = false := h
  unfold ValidatorSet.Add
  rw [h2]
  intro heq
  have hlen := congrArg List.length heq
  simp at hlen

theorem Del_ne (s : ValidatorSet) (a : Address)
    (h : ValidatorSet.Includes s a = true) : ValidatorSet.Del s a ≠ s := by
  have hmem : a ∈ s := (Includes_iff_mem s a).mp h
  unfold ValidatorSet.Del
  intro heq
  have hlen : (s.filter (fun x => !(x == a))).length < s.length :=
    List.length_filter_lt_length_iff_exists.mpr ⟨a, hmem, by simp⟩
  rw [heq] at hlen
  omega

theorem castVote_Set (s : Snapshot) (p m : Address) (a : Bool) :
    (castVote s p m a).Set = s.Set := by
  unfold castVote
  split <;> rfl

theorem hook_eq_voteBranch (e : Nat) (h : Header) (s : Snapshot) (p : Address)
    (a : Bool) (hnum : h.Number % e ≠ 0) (hminer : h.Miner ≠ ZeroAddress)
    (hnonce : decodeVoteNonce h.Nonce = some a) :
    processHeadersHook e h s p = voteBranch s p h.Miner a := by
  unfold processHeadersHook
  rw [if_neg hnum, if_neg hminer, hnonce]

theorem voteBranch_guard (s : Snapshot) (p m : Address) (a : Bool)
    (hguard : ValidatorSet.Includes s.Set m = !a)
    (hdup : s.Count (fun v => v.Validator == p && v.Address == m) ≤ 1) :
    voteBranch s p m a = ⟨applyTally (castVote s p m a) m a, [], [], none⟩ := by
  have hnlt : ¬ 1 < s.Count (fun v => v.Validator == p && v.Address == m) :=
    Nat.not_lt.mpr hdup
  unfold voteBranch
  cases a <;> simp [hguard, hnlt]

theorem voteBranch_err_ne (s : Snapshot) (p m : Address) (a : Bool) :
    (voteBranch s p m a).err ≠ some "incorrect vote nonce" := by
  unfold voteBranch
  split
  · simp
  · split
    · simp
    · split
      · intro hc
        rw [Option.some.injEq] at hc
        exact absurd hc (by decide)
      · simp

theorem voteBranch_error_eq (s : Snapshot) (p m : Address) (a : Bool)
    (msg : String) (herr : (voteBranch s p m a).err = some msg) :
    voteBranch s p m a = ⟨s, [], [], some msg⟩ := by
  unfold voteBranch at herr ⊢
  by_cases h1 : (a && ValidatorSet.Includes s.Set m) = true
  · rw [if_pos h1] at herr
    simp at herr
  · rw [if_neg h1] at herr ⊢
    by_cases h2 : (!a && !(ValidatorSet.Includes s.Set m)) = true
    · rw [if_pos h2] at herr
      simp at herr
    · rw [if_neg h2] at herr ⊢
      by_cases h3 : 1 < s.Count (fun v => v.Validator == p && v.Address == m)
      · rw [if_pos h3] at herr ⊢
        have hmsg : "more than one proposal per validator per address found" = msg := by
          simpa using herr
        rw [hmsg]
      · rw [if_neg h3] at herr
        simp at herr

theorem hook_error_eq (e : Nat) (h : Header) (s : Snapshot) (p : Address)
    (msg : String) (herr : (processHeadersHook e h s p).err = some msg) :
    processHeadersHook e h s p = ⟨s, [], [], some msg⟩ := by
  by_cases hnum : h.Number % e = 0
  · exfalso
    simp only [processHeadersHook] at herr
    rw [if_pos hnum] at herr
    simp at herr
  · by_cases hm : h.Miner = ZeroAddress
    · exfalso
      simp only [processHeadersHook] at herr
      rw [if_neg hnum, if_pos hm] at herr
      simp at herr
    · simp only [processHeadersHook] at herr ⊢
      rw [if_neg hnum, if_neg hm] at herr ⊢
      cases hd : decodeVoteNonce h.Nonce with
      | none =>
        rw [hd] at herr
        have hmsg : "incorrect vote nonce" = msg := by simpa using herr
        subst hmsg
        rfl
      | some a =>
        rw [hd] at herr
        exact voteBranch_error_eq s p h.Miner a msg herr

/-- C2: on a checkpoint header (number divisible by epochSize) the hook
unconditionally clears the pending votes, passes the header to saveSnap,
asks the store to deleteLower((number / epochSize - 2) * epochSize) exactly
when number / epochSize > 2, and succeeds for every miner and nonce value. -/
theorem processHeadersHook_checkpoint (e : Nat) (h : Header) (s : Snapshot)
    (p : Address) (hnum : h.Number % e = 0) :
    processHeadersHook e h s p =
      ⟨⟨s.Number, s.Set, []⟩, [h],
        if 2 < h.Number / e then [(h.Number / e - 2) * e] else [], none⟩ := by
  simp only [processHeadersHook]
  rw [if_pos hnum]
  by_cases hk : 2 < h.Number / e
  · have hpos : (0 : Int) < ((h.Number / e : Nat) : Int) - 2 := by omega
    have h2 : (((h.Number / e : Nat) : Int) - 2).toNat = h.Number / e - 2 := by omega
    rw [if_pos hpos, if_pos hk, h2]
  · have hneg : ¬ ((0 : Int) < ((h.Number / e : Nat) : Int) - 2) := by omega
    rw [if_neg hneg, if_neg hk]

theorem processHeadersHook_checkpoint_witness :
    (30 : Nat) % 10 = 0 ∧
    processHeadersHook 10 ⟨30, 5, 12345⟩ ⟨29, [1, 2], [⟨1, 3, true⟩]⟩ 9 =
      ⟨⟨29, [1, 2], []⟩, [⟨30, 5, 12345⟩],
        if 2 < (30 : Nat) / 10 then [((30 : Nat) / 10 - 2) * 10] else [], none⟩ :=
  ⟨by decide,
    processHeadersHook_checkpoint 10 ⟨30, 5, 12345⟩ ⟨29, [1, 2], [⟨1, 3, true⟩]⟩ 9
      (by decide)⟩

/-- C6: on a non-checkpoint header with a non-zero miner and a valid nonce,
an already-satisfied proposal (AUTH for a current member, or DROP for a
non-member) is an explicit success that leaves the snapshot and the recorded
side effects untouched. -/
theorem processHeadersHook_satisfied_noop (e : Nat) (h : Header) (s : Snapshot)
    (p : Address) (a : Bool) (hnum : h.Number % e ≠ 0)
    (hminer : h.Miner ≠ ZeroAddress)
    (hnonce : decodeVoteNonce h.Nonce = some a)
    (hsat : ValidatorSet.Includes s.Set h.Miner = a) :
    processHeadersHook e h s p = ⟨s, [], [], none⟩ := by
  rw [hook_eq_voteBranch e h s p a hnum hminer hnonce]
  unfold voteBranch
  cases a <;> simp [hsat]

theorem processHeadersHook_satisfied_noop_witness :
    (3 : Nat) % 10 ≠ 0 ∧
    processHeadersHook 10 ⟨3, 2, nonceAuthVote⟩ ⟨2, [1, 2], []⟩ 1 =
      ⟨⟨2, [1, 2], []⟩, [], [], none⟩ :=
  ⟨by decide,
    processHeadersHook_satisfied_noop 10 ⟨3, 2, nonceAuthVote⟩ ⟨2, [1, 2], []⟩ 1 true
      (by decide) (by decide) (by decide) (by decide)⟩

/-- C8: the hook is deterministic: two invocations on identical inputs return
identical outcomes, and in particular the post-snapshots agree on the
validator set and on the votes as a multiset. -/
theorem processHeadersHook_deterministic (e1 e2 : Nat) (h1 h2 : Header)
    (s1 s2 : Snapshot) (p1 p2 : Address)
    (he : e1 = e2) (hh : h1 = h2) (hs : s1 = s2) (hp : p1 = p2) :
    processHeadersHook e1 h1 s1 p1 = processHeadersHook e2 h2 s2 p2 ∧
    (processHeadersHook e1 h1 s1 p1).snap.Set =
      (processHeadersHook e2 h2 s2 p2).snap.Set ∧
    ((processHeadersHook e1 h1 s1 p1).snap.Votes : Multiset Vote) =
      ((processHeadersHook e2 h2 s2 p2).snap.Votes : Multiset Vote) := by
  subst he hh hs hp
  exact ⟨rfl, rfl, rfl⟩

theorem processHeadersHook_deterministic_witness :
    (10 : Nat) = 10 ∧
    processHeadersHook 10 ⟨3, 4, nonceAuthVote⟩ ⟨2, [1, 2, 3], []⟩ 1 =
      processHeadersHook 10 ⟨3, 4, nonceAuthVote⟩ ⟨2, [1, 2, 3], []⟩ 1 ∧
    (processHeadersHook 10 ⟨3, 4, nonceAuthVote⟩ ⟨2, [1, 2, 3], []⟩ 1).snap.Set =
      (processHeadersHook 10 ⟨3, 4, nonceAuthVote⟩ ⟨2, [1, 2, 3], []⟩ 1).snap.Set ∧
    ((processHeadersHook 10 ⟨3, 4, nonceAuthVote⟩ ⟨2, [1, 2, 3], []⟩ 1).snap.Votes :
        Multiset Vote) =
      ((processHeadersHook 10 ⟨3, 4, nonceAuthVote⟩ ⟨2, [1, 2, 3], []⟩ 1).snap.Votes :
        Multiset Vote) :=
  ⟨rfl,
    processHeadersHook_deterministic 10 10 ⟨3, 4, nonceAuthVote⟩ ⟨3, 4, nonceAuthVote⟩
      ⟨2, [1, 2, 3], []⟩ ⟨2, [1, 2, 3], []⟩ 1 1 rfl rfl rfl rfl⟩

/-- C9: whenever the hook returns an error, the working snapshot is returned
unchanged and neither saveSnap nor deleteLower has been invoked: every error
return happens before any mutation. -/
theorem processHeadersHook_error_no_mutation (e : Nat) (h : Header)
    (s : Snapshot) (p : Address) (msg : String)
    (herr : (processHeadersHook e h s p).err = some msg) :
    (processHeadersHook e h s p).snap = s ∧
    (processHeadersHook e h s p).saves = [] ∧
    (processHeadersHook e h s p).deletes = [] := by
  rw [hook_error_eq e h s p msg herr]
  exact ⟨rfl, rfl, rfl⟩

/-- C4: on a non-checkpoint header the hook fails with the invalid-vote-nonce
error exactly when the miner is non-zero and the nonce is neither sentinel;
with a zero miner it succeeds without touching the snapshot or the nonce. -/
theorem processHeadersHook_invalid_nonce_iff (e : Nat) (h : Header) (s : Snapshot)
    (p : Address) (hnum : h.Number % e ≠ 0) :
    ((processHeadersHook e h s p).err = some "incorrect vote nonce" ↔
      h.Miner ≠ ZeroAddress ∧ h.Nonce ≠ nonceAuthVote ∧ h.Nonce ≠ nonceDropVote) ∧
    (h.Miner = ZeroAddress → processHeadersHook e h s p = ⟨s, [], [], none⟩) := by
  simp only [processHeadersHook]
  rw [if_neg hnum]
  by_cases hm : h.Miner = ZeroAddress
  · rw [if_pos hm]
    refine ⟨?_, fun _ => rfl⟩
    simp [hm]
  · rw [if_neg hm]
    cases hd : decodeVoteNonce h.Nonce with
    | none =>
      have hna : h.Nonce ≠ nonceAuthVote := by
        intro hx
        unfold decodeVoteNonce at hd
        rw [if_pos hx] at hd
        exact Option.noConfusion hd
      have hnd : h.Nonce ≠ nonceDropVote := by
        intro hx
        unfold decodeVoteNonce at hd
        rw [if_neg hna, if_pos hx] at hd
        exact Option.noConfusion hd
      exact ⟨⟨fun _ => ⟨hm, hna, hnd⟩, fun _ => rfl⟩, fun hmz => absurd hmz hm⟩
    | some a =>
      have hsent : h.Nonce = nonceAuthVote ∨ h.Nonce = nonceDropVote := by
        by_cases hx : h.Nonce = nonceAuthVote
        · exact Or.inl hx
        · by_cases hy : h.Nonce = nonceDropVote
          · exact Or.inr hy
          · exfalso
            unfold decodeVoteNonce at hd
            rw [if_neg hx, if_neg hy] at hd
            exact Option.noConfusion hd
      refine ⟨⟨fun hc => absurd hc (voteBranch_err_ne s p h.Miner a), ?_⟩,
        fun hmz => absurd hmz hm⟩
      rintro ⟨-, hna, hnd⟩
      rcases hsent with hx | hx
      · exact absurd hx hna
      · exact absurd hx hnd

theorem processHeadersHook_invalid_nonce_iff_witness :
    (3 : Nat) % 10 ≠ 0 ∧
    (((processHeadersHook 10 ⟨3, 4, 7⟩ ⟨2, [1], []⟩ 1).err = some "incorrect vote nonce" ↔
        (4 : Address) ≠ ZeroAddress ∧ (7 : Nonce) ≠ nonceAuthVote ∧
          (7 : Nonce) ≠ nonceDropVote) ∧
      ((4 : Address) = ZeroAddress →
        processHeadersHook 10 ⟨3, 4, 7⟩ ⟨2, [1], []⟩ 1 = ⟨⟨2, [1], []⟩, [], [], none⟩)) :=
  ⟨by decide, processHeadersHook_invalid_nonce_iff 10 ⟨3, 4, 7⟩ ⟨2, [1], []⟩ 1 (by decide)⟩

theorem processHeadersHook_error_no_mutation_witness :
    (processHeadersHook 10 ⟨3, 4, 7⟩ ⟨2, [1], []⟩ 1).err = some "incorrect vote nonce" ∧
    ((processHeadersHook 10 ⟨3, 4, 7⟩ ⟨2, [1], []⟩ 1).snap = ⟨2, [1], []⟩ ∧
      (processHeadersHook 10 ⟨3, 4, 7⟩ ⟨2, [1], []⟩ 1).saves = [] ∧
      (processHeadersHook 10 ⟨3, 4, 7⟩ ⟨2, [1], []⟩ 1).deletes = []) :=
  ⟨by decide,
    processHeadersHook_error_no_mutation 10 ⟨3, 4, 7⟩ ⟨2, [1], []⟩ 1
      "incorrect vote nonce" (by decide)⟩

end Ibft

namespace Ibft

theorem applyTally_not_triggered (s : Snapshot) (m : Address) (a : Bool)
    (h : ¬ ValidatorSet.Len s.Set / 2 < s.Count (fun v => v.Address == m)) :
    applyTally s m a = s := by
  simp only [applyTally]
  rw [if_neg h]

theorem applyTally_auth (s : Snapshot) (m : Address)
    (h : ValidatorSet.Len s.Set / 2 < s.Count (fun v => v.Address == m)) :
    applyTally s m true =
      ⟨s.Number, ValidatorSet.Add s.Set m,
        s.Votes.filter (fun v => !(v.Address == m))⟩ := by
  simp only [applyTally]
  rw [if_pos h]
  rfl

theorem applyTally_drop (s : Snapshot) (m : Address)
    (h : ValidatorSet.Len s.Set / 2 < s.Count (fun v => v.Address == m)) :
    applyTally s m false =
      ⟨s.Number, ValidatorSet.Del s.Set m,
        (s.Votes.filter (fun v => !(v.Validator == m))).filter
          (fun v => !(v.Address == m))⟩ := by
  simp only [applyTally]
  rw [if_pos h]
  rfl

/-- C1: on a non-checkpoint vote header past the idempotence and duplicate
guards, the hook succeeds, the tally is the count of pending votes (after the
cast step) naming the miner as candidate regardless of direction, the
validator set changes exactly when the tally strictly exceeds half of the set
size at the moment of evaluation, and in that case the miner is added (AUTH)
or removed with its own votes purged (DROP), with every vote naming the miner
purged in both cases; below the threshold the set is unchanged. -/
theorem processHeadersHook_majority_tally (e : Nat) (h : Header) (s : Snapshot)
    (p : Address) (a : Bool)
    (hnum : h.Number % e ≠ 0) (hminer : h.Miner ≠ ZeroAddress)
    (hnonce : decodeVoteNonce h.Nonce = some a)
    (hguard : ValidatorSet.Includes s.Set h.Miner = !a)
    (hdup : s.Count (fun v => v.Validator == p && v.Address == h.Miner) ≤ 1) :
    (processHeadersHook e h s p).err = none ∧
    ((processHeadersHook e h s p).snap.Set ≠ s.Set ↔
      ValidatorSet.Len s.Set / 2 <
        (castVote s p h.Miner a).Count (fun v => v.Address == h.Miner)) ∧
    (ValidatorSet.Len s.Set / 2 <
        (castVote s p h.Miner a).Count (fun v => v.Address == h.Miner) →
      (a = true →
        (processHeadersHook e h s p).snap.Set = ValidatorSet.Add s.Set h.Miner ∧
        (processHeadersHook e h s p).snap.Votes =
          (castVote s p h.Miner a).Votes.filter (fun v => !(v.Address == h.Miner))) ∧
      (a = false →
        (processHeadersHook e h s p).snap.Set = ValidatorSet.Del s.Set h.Miner ∧
        (processHeadersHook e h s p).snap.Votes =
          ((castVote s p h.Miner a).Votes.filter
            (fun v => !(v.Validator == h.Miner))).filter
              (fun v => !(v.Address == h.Miner)))) ∧
    (¬ ValidatorSet.Len s.Set / 2 <
        (castVote s p h.Miner a).Count (fun v => v.Address == h.Miner) →
      (processHeadersHook e h s p).snap.Set = s.Set ∧
      (processHeadersHook e h s p).snap.Votes = (castVote s p h.Miner a).Votes) := by
  rw [hook_eq_voteBranch e h s p a hnum hminer hnonce,
    voteBranch_guard s p h.Miner a hguard hdup]
  set s1 := castVote s p h.Miner a with hs1
  have hset : s1.Set = s.Set := castVote_Set s p h.Miner a
  by_cases ht : ValidatorSet.Len s.Set / 2 < s1.Count (fun v => v.Address == h.Miner)
  · have ht1 : ValidatorSet.Len s1.Set / 2 < s1.Count (fun v => v.Address == h.Miner) := by
      rw [hset]
      exact ht
    cases a with
    | true =>
      have happ := applyTally_auth s1 h.Miner ht1
      refine ⟨rfl, ⟨fun _ => ht, fun _ => ?_⟩, fun _ => ⟨fun _ => ?_, ?_⟩,
        fun hcon => absurd ht hcon⟩
      · rw [happ, hset]
        exact Add_ne s.Set h.Miner (by simpa using hguard)
      · rw [happ, hset]
        exact ⟨rfl, rfl⟩
      · intro hfalse
        exact absurd hfalse (by decide)
    | false =>
      have happ := applyTally_drop s1 h.Miner ht1
      refine ⟨rfl, ⟨fun _ => ht, fun _ => ?_⟩, fun _ => ⟨?_, fun _ => ?_⟩,
        fun hcon => absurd ht hcon⟩
      · rw [happ, hset]
        exact Del_ne s.Set h.Miner (by simpa using hguard)
      · intro htrue
        exact absurd htrue (by decide)
      · rw [happ, hset]
        exact ⟨rfl, rfl⟩
  · have ht1 : ¬ ValidatorSet.Len s1.Set / 2 < s1.Count (fun v => v.Address == h.Miner) := by
      rw [hset]
      exact ht
    have happ := applyTally_not_triggered s1 h.Miner a ht1
    refine ⟨rfl, ⟨fun hne => ?_, fun hcon => absurd hcon ht⟩,
      fun hcon => absurd hcon ht, fun _ => ?_⟩
    · exfalso
      apply hne
      rw [happ, hset]
    · rw [happ]
      exact ⟨hset, rfl⟩

theorem processHeadersHook_majority_tally_witness :
    (4 : Nat) % 10 ≠ 0 ∧ (4 : Ibft.Address) ≠ ZeroAddress ∧
    decodeVoteNonce nonceAuthVote = some true ∧
    ValidatorSet.Includes [1, 2, 3] 4 = !true ∧
    Snapshot.Count ⟨3, [1, 2, 3], [⟨1, 4, true⟩]⟩
      (fun v => v.Validator == 2 && v.Address == 4) ≤ 1 ∧
    ((processHeadersHook 10 ⟨4, 4, nonceAuthVote⟩ ⟨3, [1, 2, 3], [⟨1, 4, true⟩]⟩ 2).err =
        none ∧
      ((processHeadersHook 10 ⟨4, 4, nonceAuthVote⟩
            ⟨3, [1, 2, 3], [⟨1, 4, true⟩]⟩ 2).snap.Set ≠ [1, 2, 3] ↔
        ValidatorSet.Len [1, 2, 3] / 2 <
          (castVote ⟨3, [1, 2, 3], [⟨1, 4, true⟩]⟩ 2 4 true).Count
            (fun v => v.Address == 4)) ∧
      (ValidatorSet.Len [1, 2, 3] / 2 <
          (castVote ⟨3, [1, 2, 3], [⟨1, 4, true⟩]⟩ 2 4 true).Count
            (fun v => v.Address == 4) →
        (true = true →
          (processHeadersHook 10 ⟨4, 4, nonceAuthVote⟩
              ⟨3, [1, 2, 3], [⟨1, 4, true⟩]⟩ 2).snap.Set =
            ValidatorSet.Add [1, 2, 3] 4 ∧
          (processHeadersHook 10 ⟨4, 4, nonceAuthVote⟩
              ⟨3, [1, 2, 3], [⟨1, 4, true⟩]⟩ 2).snap.Votes =
            (castVote ⟨3, [1, 2, 3], [⟨1, 4, true⟩]⟩ 2 4 true).Votes.filter
              (fun v => !(v.Address == 4))) ∧
        (true = false →
          (processHeadersHook 10 ⟨4, 4, nonceAuthVote⟩
              ⟨3, [1, 2, 3], [⟨1, 4, true⟩]⟩ 2).snap.Set =
            ValidatorSet.Del [1, 2, 3] 4 ∧
          (processHeadersHook 10 ⟨4, 4, nonceAuthVote⟩
              ⟨3, [1, 2, 3], [⟨1, 4, true⟩]⟩ 2).snap.Votes =
            ((castVote ⟨3, [1, 2, 3], [⟨1, 4, true⟩]⟩ 2 4 true).Votes.filter
              (fun v => !(v.Validator == 4))).filter
                (fun v => !(v.Address == 4)))) ∧
      (¬ ValidatorSet.Len [1, 2, 3] / 2 <
          (castVote ⟨3, [1, 2, 3], [⟨1, 4, true⟩]⟩ 2 4 true).Count
            (fun v => v.Address == 4) →
        (processHeadersHook 10 ⟨4, 4, nonceAuthVote⟩
            ⟨3, [1, 2, 3], [⟨1, 4, true⟩]⟩ 2).snap.Set = [1, 2, 3] ∧
        (processHeadersHook 10 ⟨4, 4, nonceAuthVote⟩
            ⟨3, [1, 2, 3], [⟨1, 4, true⟩]⟩ 2).snap.Votes =
          (castVote ⟨3, [1, 2, 3], [⟨1, 4, true⟩]⟩ 2 4 true).Votes)) :=
  ⟨by decide, by decide, by decide, by decide, by decide,
    processHeadersHook_majority_tally 10 ⟨4, 4, nonceAuthVote⟩
      ⟨3, [1, 2, 3], [⟨1, 4, true⟩]⟩ 2 true
      (by decide) (by decide) (by decide) (by decide) (by decide)⟩

/-- C5: past the idempotence guard, with c the number of pending votes by the
proposer for this miner: c > 1 fails with the duplicate-vote error, c = 0
appends exactly the one new vote, and c = 1 appends nothing, the existing
vote standing; in the two latter cases the hook succeeds. -/
theorem processHeadersHook_duplicate_guard (e : Nat) (h : Header) (s : Snapshot)
    (p : Address) (a : Bool)
    (hnum : h.Number % e ≠ 0) (hminer : h.Miner ≠ ZeroAddress)
    (hnonce : decodeVoteNonce h.Nonce = some a)
    (hguard : ValidatorSet.Includes s.Set h.Miner = !a) :
    (1 < s.Count (fun v => v.Validator == p && v.Address == h.Miner) →
      (processHeadersHook e h s p).err =
        some "more than one proposal per validator per address found") ∧
    (s.Count (fun v => v.Validator == p && v.Address == h.Miner) = 0 →
      (castVote s p h.Miner a).Votes = s.Votes ++ [⟨p, h.Miner, a⟩] ∧
      (processHeadersHook e h s p).err = none) ∧
    (s.Count (fun v => v.Validator == p && v.Address == h.Miner) = 1 →
      (castVote s p h.Miner a).Votes = s.Votes ∧
      (processHeadersHook e h s p).err = none) := by
  rw [hook_eq_voteBranch e h s p a hnum hminer hnonce]
  refine ⟨?_, ?_, ?_⟩
  · intro hgt
    unfold voteBranch
    cases a <;> simp [hguard, hgt]
  · intro h0
    constructor
    · unfold castVote
      rw [if_pos h0]
    · rw [voteBranch_guard s p h.Miner a hguard (by omega)]
  · intro h1
    constructor
    · unfold castVote
      rw [if_neg (by omega)]
    · rw [voteBranch_guard s p h.Miner a hguard (by omega)]

theorem processHeadersHook_duplicate_guard_witness :
    (3 : Nat) % 10 ≠ 0 ∧ (4 : Ibft.Address) ≠ ZeroAddress ∧
    decodeVoteNonce nonceAuthVote = some true ∧
    ValidatorSet.Includes [1, 2, 3] 4 = !true ∧
    ((1 < Snapshot.Count ⟨2, [1, 2, 3], []⟩
        (fun v => v.Validator == 1 && v.Address == 4) →
      (processHeadersHook 10 ⟨3, 4, nonceAuthVote⟩ ⟨2, [1, 2, 3], []⟩ 1).err =
        some "more than one proposal per validator per address found") ∧
    (Snapshot.Count ⟨2, [1, 2, 3], []⟩
        (fun v => v.Validator == 1 && v.Address == 4) = 0 →
      (castVote ⟨2, [1, 2, 3], []⟩ 1 4 true).Votes = [] ++ [⟨1, 4, true⟩] ∧
      (processHeadersHook 10 ⟨3, 4, nonceAuthVote⟩ ⟨2, [1, 2, 3], []⟩ 1).err = none) ∧
    (Snapshot.Count ⟨2, [1, 2, 3], []⟩
        (fun v => v.Validator == 1 && v.Address == 4) = 1 →
      (castVote ⟨2, [1, 2, 3], []⟩ 1 4 true).Votes = [] ∧
      (processHeadersHook 10 ⟨3, 4, nonceAuthVote⟩ ⟨2, [1, 2, 3], []⟩ 1).err = none)) :=
  ⟨by decide, by decide, by decide, by decide,
    processHeadersHook_duplicate_guard 10 ⟨3, 4, nonceAuthVote⟩ ⟨2, [1, 2, 3], []⟩ 1 true
      (by decide) (by decide) (by decide) (by decide)⟩

theorem castVote_voters (s : Snapshot) (p m : Address) (a : Bool)
    (hins : ∀ v ∈ s.Votes, v.Validator ∈ s.Set) (hprop : p ∈ s.Set) :
    ∀ v ∈ (castVote s p m a).Votes, v.Validator ∈ (castVote s p m a).Set := by
  unfold castVote
  split
  · intro v hv
    simp only [List.mem_append, List.mem_singleton] at hv
    rcases hv with hv | hv
    · exact hins v hv
    · subst hv
      exact hprop
  · exact hins

theorem applyTally_voters (s : Snapshot) (m : Address) (a : Bool)
    (hins : ∀ v ∈ s.Votes, v.Validator ∈ s.Set) :
    ∀ v ∈ (applyTally s m a).Votes, v.Validator ∈ (applyTally s m a).Set := by
  by_cases ht : ValidatorSet.Len s.Set / 2 < s.Count (fun v => v.Address == m)
  · cases a with
    | true =>
      rw [applyTally_auth s m ht]
      intro v hv
      simp only [List.mem_filter] at hv
      exact mem_Add s.Set m v.Validator (hins v hv.1)
    | false =>
      rw [applyTally_drop s m ht]
      intro v hv
      simp only [List.mem_filter] at hv
      obtain ⟨⟨hvm, hvne⟩, _⟩ := hv
      have hne : v.Validator ≠ m := by simpa using hvne
      exact mem_Del s.Set m v.Validator (hins v hvm) hne
  · rw [applyTally_not_triggered s m a ht]
    exact hins

theorem voteBranch_voters (s : Snapshot) (p m : Address) (a : Bool)
    (hins : ∀ v ∈ s.Votes, v.Validator ∈ s.Set) (hprop : p ∈ s.Set) :
    ∀ v ∈ (voteBranch s p m a).snap.Votes,
      v.Validator ∈ (voteBranch s p m a).snap.Set := by
  unfold voteBranch
  split
  · exact hins
  · split
    · exact hins
    · split
      · exact hins
      · exact applyTally_voters (castVote s p m a) m a
          (castVote_voters s p m a hins hprop)

/-- C3 counterexample: with a proposer outside the validator set, a
successful hook invocation can leave a vote whose voter is not in the set,
refuting the claim as stated for arbitrary proposers. -/
theorem voter_membership_counterexample :
    (∀ v ∈ (⟨2, [0, 1], []⟩ : Snapshot).Votes,
      v.Validator ∈ (⟨2, [0, 1], []⟩ : Snapshot).Set) ∧
    (processHeadersHook 10 ⟨3, 2, nonceAuthVote⟩ ⟨2, [0, 1], []⟩ 3).err = none ∧
    ¬ (∀ v ∈ (processHeadersHook 10 ⟨3, 2, nonceAuthVote⟩ ⟨2, [0, 1], []⟩ 3).snap.Votes,
        v.Validator ∈
          (processHeadersHook 10 ⟨3, 2, nonceAuthVote⟩ ⟨2, [0, 1], []⟩ 3).snap.Set) := by
  decide

/-- C3 (amended): voter membership is preserved by successful hook
invocations when the proposer is a member of the input validator set. -/
theorem processHeadersHook_voter_membership (e : Nat) (h : Header) (s : Snapshot)
    (p : Address)
    (hins : ∀ v ∈ s.Votes, v.Validator ∈ s.Set)
    (hprop : p ∈ s.Set)
    (hok : (processHeadersHook e h s p).err = none) :
    ∀ v ∈ (processHeadersHook e h s p).snap.Votes,
      v.Validator ∈ (processHeadersHook e h s p).snap.Set := by
  unfold processHeadersHook
  split
  · intro v hv
    simp at hv
  · split
    · exact hins
    · cases hd : decodeVoteNonce h.Nonce with
      | none => exact hins
      | some a => exact voteBranch_voters s p h.Miner a hins hprop

theorem processHeadersHook_voter_membership_witness :
    (∀ v ∈ (⟨2, [0, 1], []⟩ : Snapshot).Votes,
      v.Validator ∈ (⟨2, [0, 1], []⟩ : Snapshot).Set) ∧
    (1 : Address) ∈ ([0, 1] : ValidatorSet) ∧
    (processHeadersHook 10 ⟨3, 2, nonceAuthVote⟩ ⟨2, [0, 1], []⟩ 1).err = none ∧
    ∀ v ∈ (processHeadersHook 10 ⟨3, 2, nonceAuthVote⟩ ⟨2, [0, 1], []⟩ 1).snap.Votes,
      v.Validator ∈
        (processHeadersHook 10 ⟨3, 2, nonceAuthVote⟩ ⟨2, [0, 1], []⟩ 1).snap.Set :=
  ⟨by decide, by decide, by decide,
    processHeadersHook_voter_membership 10 ⟨3, 2, nonceAuthVote⟩ ⟨2, [0, 1], []⟩ 1
      (by decide) (by decide) (by decide)⟩

theorem countP_filter_le {α : Type} (p q : α → Bool) (l : List α) :
    (l.filter q).countP p ≤ l.countP p := by
  rw [List.countP_filter]
  exact List.countP_mono_left (fun x _ hx => by
    rw [Bool.and_eq_true] at hx
    exact hx.1)

theorem VotesUnique_filter (votes : List Vote) (q : Vote → Bool)
    (h : VotesUnique votes) : VotesUnique (votes.filter q) :=
  fun a b => le_trans (countP_filter_le _ q votes) (h a b)

theorem castVote_unique (s : Snapshot) (p m : Address) (a : Bool)
    (h : VotesUnique s.Votes) : VotesUnique (castVote s p m a).Votes := by
  unfold castVote
  split
  next h0 =>
    intro x y
    have h0b : s.Votes.countP (fun v => v.Validator == p && v.Address == m) = 0 := h0
    show List.countP (fun v => v.Validator == x && v.Address == y)
      (s.Votes ++ [⟨p, m, a⟩]) ≤ 1
    rw [List.countP_append]
    by_cases hx : p = x
    · by_cases hy : m = y
      · subst hx
        subst hy
        rw [h0b]
        simp [List.countP_cons]
      · have hzero : List.countP (fun v => v.Validator == x && v.Address == y)
            ([⟨p, m, a⟩] : List Vote) = 0 := by
          simp [List.countP_cons, beq_iff_eq, hy]
        rw [hzero]
        simpa using h x y
    · have hzero : List.countP (fun v => v.Validator == x && v.Address == y)
          ([⟨p, m, a⟩] : List Vote) = 0 := by
        simp [List.countP_cons, beq_iff_eq, hx]
      rw [hzero]
      simpa using h x y
  next => exact h

theorem applyTally_unique (s : Snapshot) (m : Address) (a : Bool)
    (h : VotesUnique s.Votes) : VotesUnique (applyTally s m a).Votes := by
  by_cases ht : ValidatorSet.Len s.Set / 2 < s.Count (fun v => v.Address == m)
  · cases a with
    | true =>
      rw [applyTally_auth s m ht]
      exact VotesUnique_filter s.Votes _ h
    | false =>
      rw [applyTally_drop s m ht]
      exact VotesUnique_filter _ _ (VotesUnique_filter s.Votes _ h)
  · rw [applyTally_not_triggered s m a ht]
    exact h

theorem voteBranch_unique (s : Snapshot) (p m : Address) (a : Bool)
    (h : VotesUnique s.Votes) : VotesUnique (voteBranch s p m a).snap.Votes := by
  unfold voteBranch
  split
  · exact h
  · split
    · exact h
    · split
      · exact h
      · exact applyTally_unique (castVote s p m a) m a (castVote_unique s p m a h)

/-- C7: vote uniqueness is an invariant: if the input snapshot has at most one
vote per (voter, candidate) pair, so has the snapshot left by any successful
hook invocation. -/
theorem processHeadersHook_vote_uniqueness (e : Nat) (h : Header) (s : Snapshot)
    (p : Address) (huniq : VotesUnique s.Votes)
    (hok : (processHeadersHook e h s p).err = none) :
    VotesUnique (processHeadersHook e h s p).snap.Votes := by
  unfold processHeadersHook
  split
  · intro x y
    show List.countP (fun v => v.Validator == x && v.Address == y)
      ([] : List Vote) ≤ 1
    simp
  · split
    · exact huniq
    · cases hd : decodeVoteNonce h.Nonce with
      | none => exact huniq
      | some a => exact voteBranch_unique s p h.Miner a huniq

theorem processHeadersHook_vote_uniqueness_witness :
    VotesUnique ([] : List Vote) ∧
    (processHeadersHook 10 ⟨3, 4, nonceAuthVote⟩ ⟨2, [1, 2, 3], []⟩ 1).err = none ∧
    VotesUnique
      (processHeadersHook 10 ⟨3, 4, nonceAuthVote⟩ ⟨2, [1, 2, 3], []⟩ 1).snap.Votes :=
  ⟨fun a b => by simp, by decide,
    processHeadersHook_vote_uniqueness 10 ⟨3, 4, nonceAuthVote⟩ ⟨2, [1, 2, 3], []⟩ 1
      (fun a b => by simp) (by decide)⟩

end Ibft

namespace Secrets

/-- C10: SupportedServiceManager returns true exactly on the Local and
HashicorpVault types and false on every other value. -/
theorem SupportedServiceManager_iff (service : SecretsManagerType) :
    SupportedServiceManager service = true ↔
      service = Local ∨ service = HashicorpVault := by
  unfold SupportedServiceManager
  rw [Bool.or_eq_true, beq_iff_eq, beq_iff_eq]
  constructor
  · rintro (hx | hx)
    · exact Or.inr hx
    · exact Or.inl hx
  · rintro (hx | hx)
    · exact Or.inr hx
    · exact Or.inl hx

end Secrets
